import Mathlib

/-!
# Deltagram Engine: shallow embedding and verification

This file embeds the core of the deltagrams repository (Go) in Lean 4 and
proves properties of the embedded code.

Modelling conventions:
* Go strings are modelled as `List Char` (`GoStr`).  All Go string
  operations used by the code (`strings.Split`, `strings.Join`,
  `strings.TrimSpace`, `strings.HasPrefix`, `strings.TrimPrefix`,
  `strings.TrimSuffix`, `strings.ReplaceAll`) are defined structurally
  below so that every definition is executable and kernel-reducible.
* Fallible Go code (functions returning `error`, and slice operations that
  would panic) is modelled with `Except GoStr`.
* Go `int` values appearing in the hunk headers are produced by `strconv.Atoi`
  on decimal digit strings and are therefore non-negative; they are modelled
  as `Nat`, with the `OldStart - 1` computation carried out in `Int` exactly
  where the Go code can produce `-1`.
-/

set_option maxRecDepth 10000

abbrev GoStr := List Char

deriving instance DecidableEq for Except

/-- Coerce a Lean string literal to the `List Char` model of Go strings. -/
def str (s : String) : GoStr := s.data

/-- Go `strings.Split(s, sep)` for a single-character separator (the code only
splits on `"\n"` and on the boundary pattern; see `splitOnPat` for the latter). -/
def splitOnCh (sep : Char) : GoStr → List GoStr
  | [] => [[]]
  | c :: rest =>
    if c = sep then
      [] :: splitOnCh sep rest
    else
      match splitOnCh sep rest with
      | [] => [[c]]
      | l :: ls => (c :: l) :: ls

/-- Go `strings.Join(ls, sep)` for a single-character separator. -/
def joinCh (sep : Char) : List GoStr → GoStr
  | [] => []
  | [l] => l
  | l :: ls => l ++ sep :: joinCh sep ls

/-- Drop a literal prefix, returning the remainder when the prefix matches. -/
def dropPre : GoStr → GoStr → Option GoStr
  | [], s => some s
  | _ :: _, [] => none
  | p :: ps, c :: cs => if p = c then dropPre ps cs else none

/-- Go `strings.HasPrefix`. -/
def hasPre (p s : GoStr) : Bool := (dropPre p s).isSome

/-- Decimal rendering of a `Nat`, as used by `fmt` verbs `%d`. -/
def natRepr (n : Nat) : GoStr := (Nat.repr n).data

/-- Rendering of a string by the `fmt` verb `%q`.  Go additionally escapes
non-printable characters; the claims under verification never depend on the
escaped form, so the model only adds the surrounding quotes. -/
def quoteGo (s : GoStr) : GoStr := '"' :: (s ++ ['"'])

/-! ## Hunk data model (`pkg/operations/content.go`) -/

/-- HunkHeader (content.go): four integers parsed from `@@ -A,B +C,D @@`. -/
structure HunkHeader where
  oldStart : Nat
  oldCount : Nat
  newStart : Nat
  newCount : Nat
deriving DecidableEq, Repr

/-- The tag byte of a hunk operation line: `'+'`, `'-'` or `' '`.
`ParseAllHunks` only ever constructs operations with these three tags. -/
inductive HunkOpType where
  | plus
  | minus
  | space
deriving DecidableEq, Repr

/-- HunkOperation (content.go): a tag byte plus the rest of the line. -/
structure HunkOperation where
  type : HunkOpType
  content : GoStr
deriving DecidableEq, Repr

/-- ParsedHunk (content.go): header plus ordered operations. -/
structure ParsedHunk where
  header : HunkHeader
  operations : List HunkOperation
deriving DecidableEq, Repr

/-- Normalisation used by `LinesEqual`: remove every CR character
(`strings.ReplaceAll(line, "\r", "")`). -/
def removeCR (s : GoStr) : GoStr := s.filter (fun c => c ≠ '\r')

/-- LinesEqual (content.go lines 255-260): compare two lines after removing
all `\r` characters from both sides. -/
def LinesEqual (line1 line2 : GoStr) : Bool := removeCR line1 = removeCR line2

/-- validateHunkAgainstOriginal (content.go lines 311-343), recursing over the
operation list.  Context and deletion payloads must match the original buffer
(up to `LinesEqual`); insertions do not advance the position. -/
def validateOps (originalLines : List GoStr) : List HunkOperation → Nat → Except GoStr Unit
  | [], _ => .ok ()
  | op :: rest, originalPos =>
    match op.type with
    | .space =>
      match originalLines[originalPos]? with
      | none => .error (str "context line extends beyond original file")
      | some line =>
        if LinesEqual line op.content then
          validateOps originalLines rest (originalPos + 1)
        else
          .error (str "context mismatch at original line " ++ natRepr (originalPos + 1) ++
            str ": expected " ++ quoteGo op.content ++ str ", got " ++ quoteGo line)
    | .minus =>
      match originalLines[originalPos]? with
      | none => .error (str "line to remove extends beyond original file")
      | some line =>
        if LinesEqual line op.content then
          validateOps originalLines rest (originalPos + 1)
        else
          .error (str "removal mismatch at original line " ++ natRepr (originalPos + 1) ++
            str ": expected " ++ quoteGo op.content ++ str ", got " ++ quoteGo line)
    | .plus => validateOps originalLines rest originalPos

/-- validateHunkAgainstOriginal, entry point taking the hunk. -/
def validateHunkAgainstOriginal (originalLines : List GoStr) (hunk : ParsedHunk)
    (originalStart : Nat) : Except GoStr Unit :=
  validateOps originalLines hunk.operations originalStart

/-- The fuzzy search loop of findBestHunkPosition (content.go lines 419-433):
for `offset = 1..searchRange`, first try `suggestedStart - offset` (when
non-negative), then `suggestedStart + offset` (when within the buffer). -/
def fuzzySearch (originalLines : List GoStr) (ops : List HunkOperation)
    (suggestedStart : Nat) : Nat → Nat → Option Nat
  | _, 0 => none
  | offset, remaining + 1 =>
    let tryMinus : Option Nat :=
      if offset ≤ suggestedStart then
        match validateOps originalLines ops (suggestedStart - offset) with
        | .ok _ => some (suggestedStart - offset)
        | .error _ => none
      else none
    match tryMinus with
    | some p => some p
    | none =>
      let tryPlus : Option Nat :=
        if suggestedStart + offset < originalLines.length then
          match validateOps originalLines ops (suggestedStart + offset) with
          | .ok _ => some (suggestedStart + offset)
          | .error _ => none
        else none
      match tryPlus with
      | some p => some p
      | none => fuzzySearch originalLines ops suggestedStart (offset + 1) remaining

/-- findBestHunkPosition (content.go lines 409-437): exact position first,
then offsets ±1..±5; on total failure return the validation error produced at
the suggested position. -/
def findBestHunkPosition (originalLines : List GoStr) (hunk : ParsedHunk)
    (suggestedStart : Nat) : Except GoStr Nat :=
  match validateOps originalLines hunk.operations suggestedStart with
  | .ok _ => .ok suggestedStart
  | .error e =>
    match fuzzySearch originalLines hunk.operations suggestedStart 1 5 with
    | some p => .ok p
    | none => .error e

/-- The insertion collection loop of the pure-insertion branch of
applyHunkAtPosition (content.go lines 349-354). -/
def collectInsertions : List HunkOperation → List GoStr
  | [] => []
  | op :: rest =>
    match op.type with
    | .plus => op.content :: collectInsertions rest
    | _ => collectInsertions rest

/-- The replacement-building loop of applyHunkAtPosition (content.go lines
366-389): context lines are kept while fewer than `oldCount` old lines have
been processed, insertions are always kept, deletions only count. -/
def replacementAux (oldCount : Nat) : Nat → List HunkOperation → List GoStr
  | _, [] => []
  | oldLinesProcessed, op :: rest =>
    match op.type with
    | .space =>
      if oldLinesProcessed < oldCount then
        op.content :: replacementAux oldCount (oldLinesProcessed + 1) rest
      else
        replacementAux oldCount (oldLinesProcessed + 1) rest
    | .plus => op.content :: replacementAux oldCount oldLinesProcessed rest
    | .minus => replacementAux oldCount (oldLinesProcessed + 1) rest

/-- applyHunkAtPosition (content.go lines 346-406).  The Go function's error
result is always `nil`, so the model returns the pair directly. -/
def applyHunkAtPosition (result : List GoStr) (hunk : ParsedHunk)
    (currentStart : Nat) : List GoStr × Int :=
  if hunk.header.oldCount = 0 then
    let insertLines := collectInsertions hunk.operations
    (result.take currentStart ++ insertLines ++ result.drop currentStart,
      (insertLines.length : Int))
  else
    let replacementLines := replacementAux hunk.header.oldCount 0 hunk.operations
    let endPos := min (currentStart + hunk.header.oldCount) result.length
    (result.take currentStart ++ replacementLines ++ result.drop endPos,
      (replacementLines.length : Int) - (hunk.header.oldCount : Int))

/-- updateLineMapping (content.go lines 440-445): every entry whose original
index is at least `originalStart + oldCount` is shifted by `netChange`.
`updateFrom i` applies the shift to the tail of the mapping whose first
element has index `i`. -/
def updateFrom (threshold : Nat) (netChange : Int) : Nat → List Int → List Int
  | _, [] => []
  | i, v :: rest =>
    (if threshold ≤ i then v + netChange else v) :: updateFrom threshold netChange (i + 1) rest

/-- updateLineMapping, entry point. -/
def updateLineMapping (lineMapping : List Int) (originalStart oldCount : Nat)
    (netChange : Int) : List Int :=
  updateFrom (originalStart + oldCount) netChange 0 lineMapping

/-- The identity line mapping `lineMapping[i] = i` (content.go lines 73-76). -/
def identityMapping (n : Nat) : List Int := (List.range n).map (fun i : Nat => (i : Int))

/-- The hunk loop of applyUnifiedDiff (content.go lines 66-109).  Each hunk is
range-checked against the *original* buffer, positioned against the original
buffer with fuzzy matching, translated through the line mapping, and applied
to the evolving result.  The Go code indexes `lineMapping[originalStart]` and
slices `result[:currentStart]`; the former is always in range (the best
position is an index of the original buffer), the latter would panic if the
mapping entry ran outside the current result, which the model reports as an
error. -/
def applyHunksLoop (originalLines : List GoStr) :
    List ParsedHunk → List GoStr → List Int → Except GoStr (List GoStr)
  | [], result, _ => .ok result
  | hunk :: rest, result, lineMapping =>
    if hunk.header.oldStart = 0 ∨ originalLines.length < hunk.header.oldStart then
      .error (str "hunk refers to line " ++ natRepr hunk.header.oldStart ++
        str " but original file has " ++ natRepr originalLines.length ++ str " lines")
    else
      let originalStart := hunk.header.oldStart - 1
      match findBestHunkPosition originalLines hunk originalStart with
      | .error e =>
        .error (str "failed to find position for hunk at line " ++
          natRepr hunk.header.oldStart ++ str ": " ++ e)
      | .ok bestPosition =>
        let currentStart : Int := lineMapping.getD bestPosition 0
        if currentStart < 0 ∨ (result.length : Int) < currentStart then
          .error (str "go runtime error: slice bounds out of range")
        else
          let step := applyHunkAtPosition result hunk currentStart.toNat
          applyHunksLoop originalLines rest step.1
            (updateLineMapping lineMapping bestPosition hunk.header.oldCount step.2)

/-- applyUnifiedDiff restricted to already-parsed hunks: initial result is a
copy of the original lines, initial mapping is the identity. -/
def applyHunksToLines (originalLines : List GoStr) (hunks : List ParsedHunk) :
    Except GoStr (List GoStr) :=
  applyHunksLoop originalLines hunks originalLines (identityMapping originalLines.length)

/-! ## Hunk lexing (`parseHunkHeader`, `ParseAllHunks`) -/

/-- Leading decimal digits of a string, and the remainder. -/
def spanDigits (s : GoStr) : GoStr × GoStr :=
  (s.takeWhile Char.isDigit, s.dropWhile Char.isDigit)

/-- Value of a non-empty digit string (`strconv.Atoi` on the digits captured
by `\d+`; the 64-bit overflow error of `Atoi` is not modelled, the inputs of
interest are small). -/
def digitsToNat (ds : GoStr) : Nat :=
  ds.foldl (fun acc c => acc * 10 + (c.toNat - '0'.toNat)) 0

/-- The optional `,(\d+)` group after a count position.  Returns the parsed
count (when the group matches) and the remainder of the line.  When a comma is
present without digits the group does not match and scanning resumes at the
comma, exactly as the regex backtracks. -/
def optCountGroup (s : GoStr) : Option Nat × GoStr :=
  match s with
  | ',' :: rest =>
    let d := spanDigits rest
    if d.1 = [] then (none, s) else (some (digitsToNat d.1), d.2)
  | _ => (none, s)

/-- parseHunkHeader (content.go lines 132-173): match the anchored regex
`@@ -(\d+)(?:,(\d+))? \+(\d+)(?:,(\d+))? @@` (trailing characters after the
closing `@@` are permitted); omitted counts default to 1. -/
def parseHunkHeader (line : GoStr) : Except GoStr HunkHeader :=
  match dropPre (str "@@ -") line with
  | none => .error (str "invalid hunk header format")
  | some r1 =>
    let dA := spanDigits r1
    if dA.1 = [] then .error (str "invalid hunk header format")
    else
      let gB := optCountGroup dA.2
      match dropPre (str " +") gB.2 with
      | none => .error (str "invalid hunk header format")
      | some r2 =>
        let dC := spanDigits r2
        if dC.1 = [] then .error (str "invalid hunk header format")
        else
          let gD := optCountGroup dC.2
          match dropPre (str " @@") gD.2 with
          | none => .error (str "invalid hunk header format")
          | some _ =>
            .ok { oldStart := digitsToNat dA.1, oldCount := (gB.1).getD 1,
                  newStart := digitsToNat dC.1, newCount := (gD.1).getD 1 }

/-- Classification of one operation line inside a hunk (content.go lines
193-205): empty lines are skipped, lines starting with `'+'`, `'-'` or `' '`
become operations, anything else is tolerated and skipped. -/
def classifyOpLine (l : GoStr) : Option HunkOperation :=
  match l with
  | [] => none
  | c :: payload =>
    if c = '+' then some ⟨.plus, payload⟩
    else if c = '-' then some ⟨.minus, payload⟩
    else if c = ' ' then some ⟨.space, payload⟩
    else none

/-- ParseAllHunks (content.go lines 176-217) as a single pass over the diff
lines.  The Go code uses an outer loop that opens a hunk at each `@@` header
and an inner loop that consumes operation lines until the next header; this
single pass carries the hunk currently being filled (`none` before the first
header) and closes it at the next header or at the end of input, which visits
exactly the same lines in the same order. -/
def parseAllHunksAux : List GoStr → Option (HunkHeader × List HunkOperation) →
    Except GoStr (List ParsedHunk)
  | [], none => .ok []
  | [], some cur => .ok [⟨cur.1, cur.2⟩]
  | l :: rest, cur =>
    if hasPre (str "@@") l then
      match parseHunkHeader l with
      | .error e => .error (str "invalid hunk header: " ++ e)
      | .ok header =>
        match cur with
        | none => parseAllHunksAux rest (some (header, []))
        | some c =>
          match parseAllHunksAux rest (some (header, [])) with
          | .error e => .error e
          | .ok hs => .ok (⟨c.1, c.2⟩ :: hs)
    else
      match cur with
      | none => parseAllHunksAux rest none
      | some c =>
        match classifyOpLine l with
        | none => parseAllHunksAux rest (some c)
        | some op => parseAllHunksAux rest (some (c.1, c.2 ++ [op]))

/-- ParseAllHunks, entry point. -/
def ParseAllHunks (diffLines : List GoStr) : Except GoStr (List ParsedHunk) :=
  parseAllHunksAux diffLines none

/-- applyUnifiedDiff (content.go lines 56-110): split the original content and
the diff on LF, lex the hunks, run the hunk loop, and rejoin with LF. -/
def applyUnifiedDiff (original diff : GoStr) : Except GoStr GoStr :=
  let originalLines := splitOnCh '\n' original
  match ParseAllHunks (splitOnCh '\n' diff) with
  | .error e => .error e
  | .ok hunks =>
    match applyHunksToLines originalLines hunks with
    | .error e => .error e
    | .ok result => .ok (joinCh '\n' result)

/-! ## Supporting lemmas for the patch applier -/

theorem fuzzySearch_lt_length {orig : List GoStr} {ops : List HunkOperation} {s : Nat}
    (hs : s < orig.length) :
    ∀ remaining offset p, fuzzySearch orig ops s offset remaining = some p →
      p < orig.length := by
  intro remaining
  induction remaining with
  | zero => intro offset p hp; simp [fuzzySearch] at hp
  | succ r ih =>
    intro offset p hp
    simp only [fuzzySearch] at hp
    by_cases hle : offset ≤ s
    · simp only [hle, if_true] at hp
      cases hv : validateOps orig ops (s - offset) with
      | ok u =>
        rw [hv] at hp
        simp only at hp
        cases hp
        omega
      | error e =>
        rw [hv] at hp
        simp only at hp
        by_cases hlt : s + offset < orig.length
        · simp only [hlt, if_true] at hp
          cases hv2 : validateOps orig ops (s + offset) with
          | ok u => rw [hv2] at hp; simp only at hp; cases hp; omega
          | error e2 => rw [hv2] at hp; simp only at hp; exact ih _ _ hp
        · simp only [hlt, if_false] at hp
          exact ih _ _ hp
    · simp only [hle, if_false] at hp
      by_cases hlt : s + offset < orig.length
      · simp only [hlt, if_true] at hp
        cases hv2 : validateOps orig ops (s + offset) with
        | ok u => rw [hv2] at hp; simp only at hp; cases hp; omega
        | error e2 => rw [hv2] at hp; simp only at hp; exact ih _ _ hp
      · simp only [hlt, if_false] at hp
        exact ih _ _ hp

theorem findBestHunkPosition_lt_length {orig : List GoStr} {h : ParsedHunk} {s p : Nat}
    (hs : s < orig.length) (hfind : findBestHunkPosition orig h s = .ok p) :
    p < orig.length := by
  unfold findBestHunkPosition at hfind
  cases hv : validateOps orig h.operations s with
  | ok u => rw [hv] at hfind; simp only at hfind; cases hfind; exact hs
  | error e =>
    rw [hv] at hfind
    simp only at hfind
    cases hf : fuzzySearch orig h.operations s 1 5 with
    | none => rw [hf] at hfind; exact (Except.noConfusion hfind)
    | some q =>
      rw [hf] at hfind
      simp only at hfind
      cases hfind
      exact fuzzySearch_lt_length hs _ _ _ hf


theorem identityMapping_getElem? (n p : Nat) :
    (identityMapping n)[p]? = if p < n then some ((p : Int)) else none := by
  unfold identityMapping
  by_cases hp : p < n
  · rw [if_pos hp, List.getElem?_map, List.getElem?_range hp, Option.map_some']
  · rw [if_neg hp, List.getElem?_eq_none]
    simp only [List.length_map, List.length_range]
    omega

theorem identityMapping_getD {n p : Nat} (hp : p < n) :
    (identityMapping n).getD p 0 = (p : Int) := by
  rw [List.getD_eq_getElem?_getD, identityMapping_getElem?, if_pos hp, Option.getD_some]

/-- One step of the hunk loop when the hunk is in range, positioned at `p`,
and the mapping entry at `p` is a valid index of the current result. -/
theorem applyHunksLoop_cons_ok {orig : List GoStr} {h : ParsedHunk}
    {rest : List ParsedHunk} {result : List GoStr} {lineMapping : List Int} {p : Nat}
    (hs : 1 ≤ h.header.oldStart) (hb : h.header.oldStart ≤ orig.length)
    (hfind : findBestHunkPosition orig h (h.header.oldStart - 1) = .ok p)
    (hmap : lineMapping.getD p 0 = (p : Int)) (hp : p ≤ result.length) :
    applyHunksLoop orig (h :: rest) result lineMapping =
      applyHunksLoop orig rest (applyHunkAtPosition result h p).1
        (updateLineMapping lineMapping p h.header.oldCount (applyHunkAtPosition result h p).2) := by
  conv_lhs => rw [applyHunksLoop]
  rw [if_neg (by omega)]
  simp only [hfind, hmap]
  rw [if_neg (by omega)]
  simp only [Int.toNat_natCast]

/-- Frame properties of splicing `ins` into `A` at position `p`. -/
theorem splice_frame {α : Type} (A ins : List α) (p : Nat) (hp : p ≤ A.length) :
    (A.take p ++ ins ++ A.drop p).length = A.length + ins.length
    ∧ (∀ i, i < ins.length → (A.take p ++ ins ++ A.drop p)[p + i]? = ins[i]?)
    ∧ (∀ j, j < p → (A.take p ++ ins ++ A.drop p)[j]? = A[j]?)
    ∧ (∀ j, p ≤ j → (A.take p ++ ins ++ A.drop p)[j + ins.length]? = A[j]?) := by
  have hlt : (A.take p).length = p := by
    simp [List.length_take]
    omega
  refine ⟨?_, ?_, ?_, ?_⟩
  · simp [List.length_append, List.length_take, List.length_drop]
    omega
  · intro i hi
    rw [List.append_assoc, List.getElem?_append_right (by omega)]
    rw [List.getElem?_append_left (by omega)]
    congr 1
    omega
  · intro j hj
    rw [List.append_assoc, List.getElem?_append_left (by omega)]
    rw [List.getElem?_take_of_lt (by omega)]
  · intro j hj
    rw [List.append_assoc, List.getElem?_append_right (by omega)]
    rw [List.getElem?_append_right (by omega)]
    rw [List.getElem?_drop]
    congr 1
    omega

/-! ## Claim theorems: hunk-range check and pure insertion -/

/-- C10.  For every original buffer of `n` lines and every hunk whose
1-based `old_start` translates out of the range `[0, n)` (that is,
`old_start = 0` or `old_start > n`), application fails with the out-of-range
error regardless of the hunk's contents — no fuzzy relocation, no context
examination, and in particular a pure-insertion hunk with
`old_start = n + 1` can never append after the last line. -/
theorem applyHunks_out_of_range (orig : List GoStr) (h : ParsedHunk)
    (rest : List ParsedHunk)
    (hout : h.header.oldStart = 0 ∨ orig.length < h.header.oldStart) :
    applyHunksToLines orig (h :: rest) =
      .error (str "hunk refers to line " ++ natRepr h.header.oldStart ++
        str " but original file has " ++ natRepr orig.length ++ str " lines") := by
  unfold applyHunksToLines applyHunksLoop
  rw [if_pos hout]

/-- Witness for C10: a pure-insertion hunk addressed one line past the end of
a two-line buffer is rejected with the out-of-range diagnostic. -/
theorem applyHunks_out_of_range_witness :
    applyHunksToLines [str "a", str "b"]
        [⟨⟨3, 0, 3, 1⟩, [⟨.plus, str "x"⟩]⟩] =
      .error (str "hunk refers to line 3 but original file has 2 lines") :=
  applyHunks_out_of_range [str "a", str "b"] ⟨⟨3, 0, 3, 1⟩, [⟨.plus, str "x"⟩]⟩ []
    (Or.inr (by decide))

/-- C3.  A hunk with `old_count = 0` carrying insertion payloads, applied as a
single hunk at validated position `p`, splices exactly its insertion payloads
at `[p, p + k)`: the result is `k` lines longer, the inserted payloads occupy
indices `[p, p + k)`, and every line outside that window is the corresponding
line of the input buffer. -/
theorem applyHunks_pure_insertion (orig : List GoStr) (h : ParsedHunk) (p : Nat)
    (hc : h.header.oldCount = 0)
    (hs : 1 ≤ h.header.oldStart) (hb : h.header.oldStart ≤ orig.length)
    (hfind : findBestHunkPosition orig h (h.header.oldStart - 1) = .ok p) :
    applyHunksToLines orig [h] =
      .ok (orig.take p ++ collectInsertions h.operations ++ orig.drop p)
    ∧ (orig.take p ++ collectInsertions h.operations ++ orig.drop p).length
        = orig.length + (collectInsertions h.operations).length
    ∧ (∀ i, i < (collectInsertions h.operations).length →
        (orig.take p ++ collectInsertions h.operations ++ orig.drop p)[p + i]?
          = (collectInsertions h.operations)[i]?)
    ∧ (∀ j, j < p →
        (orig.take p ++ collectInsertions h.operations ++ orig.drop p)[j]? = orig[j]?)
    ∧ (∀ j, p ≤ j →
        (orig.take p ++ collectInsertions h.operations ++ orig.drop p)[j + (collectInsertions h.operations).length]?
          = orig[j]?) := by
  have hp : p < orig.length :=
    findBestHunkPosition_lt_length (by omega) hfind
  have happ : applyHunkAtPosition orig h p =
      (orig.take p ++ collectInsertions h.operations ++ orig.drop p,
        ((collectInsertions h.operations).length : Int)) := by
    unfold applyHunkAtPosition
    rw [if_pos hc]
  have hloop : applyHunksToLines orig [h] =
      .ok (orig.take p ++ collectInsertions h.operations ++ orig.drop p) := by
    unfold applyHunksToLines
    rw [applyHunksLoop_cons_ok hs hb hfind (identityMapping_getD hp) (le_of_lt hp)]
    rw [happ]
    rfl
  have hframe := splice_frame orig (collectInsertions h.operations) p (le_of_lt hp)
  exact ⟨hloop, hframe.1, hframe.2.1, hframe.2.2.1, hframe.2.2.2⟩

/-- Witness for C3: inserting two lines at position 1 of a three-line buffer. -/
theorem applyHunks_pure_insertion_witness :
    applyHunksToLines [str "a", str "b", str "c"]
        [⟨⟨2, 0, 2, 2⟩, [⟨.space, str "b"⟩, ⟨.plus, str "x"⟩, ⟨.plus, str "y"⟩]⟩] =
      .ok [str "a", str "x", str "y", str "b", str "c"] := by
  have h := applyHunks_pure_insertion [str "a", str "b", str "c"]
    ⟨⟨2, 0, 2, 2⟩, [⟨.space, str "b"⟩, ⟨.plus, str "x"⟩, ⟨.plus, str "y"⟩]⟩ 1
    (by decide) (by decide) (by decide) (by decide)
  exact h.1

/-! ## Claim theorem: line-ending tolerant comparison (C4) -/

/-- C4.  Context and deletion payloads are compared with an equality that
strips every `\r` from both sides and nothing else: `LinesEqual` holds exactly
when the CR-stripped sides agree, and on CR-free lines it is exact equality
(spaces included).  Consequently a hunk whose context lines end with LF
applies to a CRLF buffer: the applier succeeds, the inserted line appears, and
buffer lines outside the replaced region keep their bytes. -/
theorem LinesEqual_cr_tolerance :
    (∀ l1 l2 : GoStr, LinesEqual l1 l2 = true ↔ removeCR l1 = removeCR l2)
    ∧ (∀ l1 l2 : GoStr, '\r' ∉ l1 → '\r' ∉ l2 → (LinesEqual l1 l2 = true ↔ l1 = l2))
    ∧ applyUnifiedDiff (str "A\r\nB\r\nC\r\nD") (str "@@ -1,2 +1,3 @@\n A\n+X\n B")
        = .ok (str "A\nX\nB\nC\r\nD") := by
  refine ⟨?_, ?_, by decide⟩
  · intro l1 l2
    exact decide_eq_true_iff
  · intro l1 l2 h1 h2
    have r1 : removeCR l1 = l1 := by
      refine List.filter_eq_self.mpr (fun a ha => ?_)
      simp only [decide_eq_true_eq]
      intro he
      exact h1 (he ▸ ha)
    have r2 : removeCR l2 = l2 := by
      refine List.filter_eq_self.mpr (fun a ha => ?_)
      simp only [decide_eq_true_eq]
      intro he
      exact h2 (he ▸ ha)
    unfold LinesEqual
    rw [r1, r2]
    exact decide_eq_true_iff

/-- Witness for C4: the CR-free clause applied at a concrete pair of lines
containing interior spaces. -/
theorem LinesEqual_cr_tolerance_witness :
    LinesEqual (str "  x y ") (str "  x y ") = true :=
  (LinesEqual_cr_tolerance.2.1 (str "  x y ") (str "  x y ")
    (by decide) (by decide)).mpr rfl

/-! ## Supporting lemmas for fuzzy relocation (C2) -/

/-- When context validates uniquely at `p` inside the ±5 window around `s`,
the search loop starting at `offset` finds exactly `p`, where `d` is the
distance between `s` and `p`. -/
theorem fuzzySearch_finds {orig : List GoStr} {ops : List HunkOperation} {s p d : Nat}
    (hslen : s < orig.length) (hplen : p < orig.length)
    (hvp : validateOps orig ops p = .ok ())
    (hd : p + d = s ∨ s + d = p) (hd1 : 1 ≤ d) (hd5 : d ≤ 5)
    (huniq : ∀ q, q < orig.length → q ≤ s + 5 → s ≤ q + 5 →
      validateOps orig ops q = .ok () → q = p) :
    ∀ remaining offset, 1 ≤ offset → offset ≤ d → d < offset + remaining →
      fuzzySearch orig ops s offset remaining = some p := by
  have hvge : ∀ q, q < orig.length → q ≤ s + 5 → s ≤ q + 5 → q ≠ p →
      ∃ e, validateOps orig ops q = .error e := by
    intro q hq1 hq2 hq3 hqp
    cases hv : validateOps orig ops q with
    | ok u => cases u; exact absurd (huniq q hq1 hq2 hq3 hv) hqp
    | error e => exact ⟨e, rfl⟩
  intro remaining
  induction remaining with
  | zero => intro offset h1 h2 h3; omega
  | succ r ih =>
    intro offset h1 h2 h3
    simp only [fuzzySearch]
    by_cases heq : offset = d
    · subst heq
      rcases hd with hminus | hplus
      · have hos : offset ≤ s := by omega
        have hsp : s - offset = p := by omega
        rw [if_pos hos, hsp, hvp]
      · have hsp : s + offset = p := by omega
        by_cases hos : offset ≤ s
        · obtain ⟨e, he⟩ := hvge (s - offset) (by omega) (by omega) (by omega) (by omega)
          rw [if_pos hos, he]
          simp only
          rw [if_pos (by omega), hsp, hvp]
        · rw [if_neg hos]
          simp only
          rw [if_pos (by omega), hsp, hvp]
    · have hlt : offset < d := by omega
      have hne1 : s - offset ≠ p := by omega
      have hne2 : s + offset ≠ p := by omega
      have hrec : fuzzySearch orig ops s (offset + 1) r = some p :=
        ih (offset + 1) (by omega) (by omega) (by omega)
      by_cases hos : offset ≤ s
      · obtain ⟨e, he⟩ := hvge (s - offset) (by omega) (by omega) (by omega) hne1
        rw [if_pos hos, he]
        simp only
        by_cases hpl : s + offset < orig.length
        · obtain ⟨e2, he2⟩ := hvge (s + offset) (by omega) (by omega) (by omega) hne2
          rw [if_pos hpl, he2]
          exact hrec
        · rw [if_neg hpl]
          exact hrec
      · rw [if_neg hos]
        simp only
        by_cases hpl : s + offset < orig.length
        · obtain ⟨e2, he2⟩ := hvge (s + offset) (by omega) (by omega) (by omega) hne2
          rw [if_pos hpl, he2]
          exact hrec
        · rw [if_neg hpl]
          exact hrec

/-- When no position in the ±5 window validates, the search loop fails. -/
theorem fuzzySearch_window_none {orig : List GoStr} {ops : List HunkOperation} {s : Nat}
    (hslen : s < orig.length)
    (hnone : ∀ q, q < orig.length → q ≤ s + 5 → s ≤ q + 5 →
      ∀ u, validateOps orig ops q ≠ .ok u) :
    ∀ remaining offset, offset + remaining ≤ 6 →
      fuzzySearch orig ops s offset remaining = none := by
  intro remaining
  induction remaining with
  | zero => intro offset hle; rfl
  | succ r ih =>
    intro offset hle
    simp only [fuzzySearch]
    have hmNone : ∀ q, q < orig.length → q ≤ s + 5 → s ≤ q + 5 →
        ∃ e, validateOps orig ops q = .error e := by
      intro q h1 h2 h3
      cases hv : validateOps orig ops q with
      | ok u => exact absurd hv (hnone q h1 h2 h3 u)
      | error e => exact ⟨e, rfl⟩
    by_cases hos : offset ≤ s
    · obtain ⟨e, he⟩ := hmNone (s - offset) (by omega) (by omega) (by omega)
      rw [if_pos hos, he]
      simp only
      by_cases hpl : s + offset < orig.length
      · obtain ⟨e2, he2⟩ := hmNone (s + offset) (by omega) (by omega) (by omega)
        rw [if_pos hpl, he2]
        exact ih (offset + 1) (by omega)
      · rw [if_neg hpl]
        exact ih (offset + 1) (by omega)
    · rw [if_neg hos]
      simp only
      by_cases hpl : s + offset < orig.length
      · obtain ⟨e2, he2⟩ := hmNone (s + offset) (by omega) (by omega) (by omega)
        rw [if_pos hpl, he2]
        exact ih (offset + 1) (by omega)
      · rw [if_neg hpl]
        exact ih (offset + 1) (by omega)

/-! ## Claim theorem: fuzzy relocation (C2) -/

/-- C2.  First conjunct: a hunk whose stated `old_start` is off by a non-zero
displacement of at most 5 from the unique position `p` in the ±5 window where
its context and deletions validate against the original buffer still applies,
and it applies at `p`.  Second conjunct: when no position in the ±5 window
validates, application fails with the wrapped context diagnostic produced at
the originally stated position. -/
theorem applyHunks_fuzzy_relocation :
    (∀ (orig : List GoStr) (h : ParsedHunk) (p : Nat),
      1 ≤ h.header.oldStart → h.header.oldStart ≤ orig.length →
      p ≠ h.header.oldStart - 1 → p < orig.length →
      p ≤ h.header.oldStart - 1 + 5 → h.header.oldStart - 1 ≤ p + 5 →
      validateOps orig h.operations p = .ok () →
      (∀ q, q < orig.length → q ≤ h.header.oldStart - 1 + 5 →
        h.header.oldStart - 1 ≤ q + 5 →
        validateOps orig h.operations q = .ok () → q = p) →
      applyHunksToLines orig [h] = .ok (applyHunkAtPosition orig h p).1)
    ∧ (∀ (orig : List GoStr) (h : ParsedHunk) (e : GoStr),
      1 ≤ h.header.oldStart → h.header.oldStart ≤ orig.length →
      validateOps orig h.operations (h.header.oldStart - 1) = .error e →
      (∀ q, q < orig.length → q ≤ h.header.oldStart - 1 + 5 →
        h.header.oldStart - 1 ≤ q + 5 → ∀ u, validateOps orig h.operations q ≠ .ok u) →
      applyHunksToLines orig [h] =
        .error (str "failed to find position for hunk at line " ++
          natRepr h.header.oldStart ++ str ": " ++ e)) := by
  constructor
  · intro orig h p hs hb hne hplen hw1 hw2 hvp huniq
    set s := h.header.oldStart - 1 with hsdef
    have hslen : s < orig.length := by omega
    have hvs : ∃ e, validateOps orig h.operations s = .error e := by
      cases hv : validateOps orig h.operations s with
      | ok u =>
        cases u
        exact absurd (huniq s hslen (by omega) (by omega) hv) (by omega)
      | error e => exact ⟨e, rfl⟩
    obtain ⟨e, hvs⟩ := hvs
    have hfuzzy : fuzzySearch orig h.operations s 1 5 = some p := by
      refine fuzzySearch_finds hslen hplen hvp (d := if p ≤ s then s - p else p - s)
        ?_ ?_ ?_ huniq 5 1 (by omega) ?_ ?_
      · by_cases hps : p ≤ s
        · rw [if_pos hps]; omega
        · rw [if_neg hps]; right; omega
      · by_cases hps : p ≤ s
        · rw [if_pos hps]; omega
        · rw [if_neg hps]; omega
      · by_cases hps : p ≤ s
        · rw [if_pos hps]; omega
        · rw [if_neg hps]; omega
      · by_cases hps : p ≤ s
        · rw [if_pos hps]; omega
        · rw [if_neg hps]; omega
      · by_cases hps : p ≤ s
        · rw [if_pos hps]; omega
        · rw [if_neg hps]; omega
    have hfind : findBestHunkPosition orig h s = .ok p := by
      unfold findBestHunkPosition
      rw [hvs]
      simp only
      rw [hfuzzy]
    unfold applyHunksToLines
    rw [applyHunksLoop_cons_ok hs hb hfind (identityMapping_getD hplen) (le_of_lt hplen)]
    rfl
  · intro orig h e hs hb hvs hnone
    set s := h.header.oldStart - 1 with hsdef
    have hslen : s < orig.length := by omega
    have hfuzzy : fuzzySearch orig h.operations s 1 5 = none :=
      fuzzySearch_window_none hslen hnone 5 1 (by omega)
    have hfind : findBestHunkPosition orig h s = .error e := by
      unfold findBestHunkPosition
      rw [hvs]
      simp only
      rw [hfuzzy]
    unfold applyHunksToLines
    conv_lhs => rw [applyHunksLoop]
    rw [if_neg (by omega)]
    simp only [hfind]

/-- Witness for C2: a context line that matches only at position 1 while the
hunk names line 1 (position 0) is relocated; a hunk whose context matches
nowhere fails with the diagnostic from the stated position. -/
theorem applyHunks_fuzzy_relocation_witness :
    applyHunksToLines [str "a", str "b", str "c"]
        [⟨⟨1, 1, 1, 1⟩, [⟨.minus, str "b"⟩, ⟨.plus, str "B"⟩]⟩] =
      .ok [str "a", str "B", str "c"] := by
  have h := applyHunks_fuzzy_relocation.1 [str "a", str "b", str "c"]
    ⟨⟨1, 1, 1, 1⟩, [⟨.minus, str "b"⟩, ⟨.plus, str "B"⟩]⟩ 1
    (by decide) (by decide) (by decide) (by decide) (by decide) (by decide) (by decide)
    (by decide)
  exact h.trans (by decide)

/-! ## Supporting lemmas for offset independence (C1) -/

/-- With `oldCount = 0` the replacement loop keeps exactly the insertions. -/
theorem replacementAux_zero : ∀ (ops : List HunkOperation) (k : Nat),
    replacementAux 0 k ops = collectInsertions ops := by
  intro ops
  induction ops with
  | nil => intro k; rfl
  | cons op rest ih =>
    intro k
    obtain ⟨ty, content⟩ := op
    cases ty <;> simp [replacementAux, collectInsertions, ih]

/-- The lines a hunk splices into the buffer: its replacement content, which
for a pure insertion degenerates to the insertion payloads. -/
def hunkNewLines (h : ParsedHunk) : List GoStr :=
  replacementAux h.header.oldCount 0 h.operations

/-- Uniform shape of `applyHunkAtPosition`: both branches splice
`hunkNewLines` over the (clamped) replaced window. -/
theorem applyHunkAtPosition_eq (result : List GoStr) (h : ParsedHunk) (cur : Nat) :
    applyHunkAtPosition result h cur =
      (result.take cur ++ hunkNewLines h ++
        result.drop (min (cur + h.header.oldCount) result.length),
       ((hunkNewLines h).length : Int) - (h.header.oldCount : Int)) := by
  unfold applyHunkAtPosition hunkNewLines
  by_cases hc : h.header.oldCount = 0
  · rw [if_pos hc, hc, replacementAux_zero]
    have hdrop : result.drop cur = result.drop (min (cur + 0) result.length) := by
      rcases le_total cur result.length with hle | hge
      · rw [Nat.add_zero, min_eq_left hle]
      · rw [Nat.add_zero, min_eq_right hge, List.drop_length,
          List.drop_eq_nil_of_le hge]
    rw [← hdrop]
    simp
  · rw [if_neg hc]

/-- Pointwise description of `updateFrom`. -/
theorem updateFrom_getElem? (threshold : Nat) (net : Int) :
    ∀ (m : List Int) (i j : Nat),
      (updateFrom threshold net i m)[j]? =
        (m[j]?).map (fun v => if threshold ≤ i + j then v + net else v) := by
  intro m
  induction m with
  | nil => intro i j; simp [updateFrom]
  | cons v rest ih =>
    intro i j
    cases j with
    | zero => simp [updateFrom]
    | succ j' =>
      simp only [updateFrom, List.getElem?_cons_succ, ih (i + 1) j']
      have harith : i + 1 + j' = i + (j' + 1) := by omega
      rw [harith]

/-- The line mapping after one update, read at an index past the replaced
region of the identity mapping. -/
theorem updateLineMapping_identity_getD {n s c q : Nat} {net : Int}
    (hq : s + c ≤ q) (hqn : q < n) :
    (updateLineMapping (identityMapping n) s c net).getD q 0 = (q : Int) + net := by
  rw [updateLineMapping, List.getD_eq_getElem?_getD, updateFrom_getElem?,
    identityMapping_getElem?, if_pos hqn]
  simp only [Option.map_some']
  rw [if_pos (by omega)]
  rfl

/-- One step of the hunk loop at a shifted current position `cur`. -/
theorem applyHunksLoop_cons_shifted {orig : List GoStr} {h : ParsedHunk}
    {rest : List ParsedHunk} {result : List GoStr} {lineMapping : List Int}
    {p : Nat} {cur : Int}
    (hs : 1 ≤ h.header.oldStart) (hb : h.header.oldStart ≤ orig.length)
    (hfind : findBestHunkPosition orig h (h.header.oldStart - 1) = .ok p)
    (hmap : lineMapping.getD p 0 = cur) (h0 : 0 ≤ cur)
    (hle : cur ≤ (result.length : Int)) :
    applyHunksLoop orig (h :: rest) result lineMapping =
      applyHunksLoop orig rest (applyHunkAtPosition result h cur.toNat).1
        (updateLineMapping lineMapping p h.header.oldCount
          (applyHunkAtPosition result h cur.toNat).2) := by
  conv_lhs => rw [applyHunksLoop]
  rw [if_neg (by omega)]
  simp only [hfind, hmap]
  rw [if_neg (by omega)]

/-- Reading a position at or past the replaced region of a spliced buffer
recovers the corresponding original line. -/
theorem spliced_getElem? (orig R1 : List GoStr) (s1 c1 : Nat)
    (hsc : s1 + c1 ≤ orig.length) :
    ∀ q, s1 + c1 ≤ q →
      (orig.take s1 ++ R1 ++ orig.drop (s1 + c1))[q - c1 + R1.length]? = orig[q]? := by
  intro q hq
  have hts : (orig.take s1).length = s1 := by
    rw [List.length_take]
    omega
  rw [List.append_assoc, List.getElem?_append_right (by omega),
    List.getElem?_append_right (by rw [hts]; omega), List.getElem?_drop]
  congr 1
  rw [hts]
  omega

/-- Validation carries over from the original buffer to the buffer in which an
earlier, disjoint hunk has been replaced by `R1`, at the shifted position. -/
theorem validateOps_shift {orig R1 : List GoStr} {s1 c1 : Nat}
    (hsc : s1 + c1 ≤ orig.length) :
    ∀ (ops : List HunkOperation) (q : Nat), s1 + c1 ≤ q →
      validateOps orig ops q = .ok () →
      validateOps (orig.take s1 ++ R1 ++ orig.drop (s1 + c1)) ops
        (q - c1 + R1.length) = .ok () := by
  intro ops
  induction ops with
  | nil => intro q hq hv; rfl
  | cons op rest ih =>
    intro q hq hv
    obtain ⟨ty, content⟩ := op
    cases ty with
    | space =>
      simp only [validateOps] at hv ⊢
      cases hl : orig[q]? with
      | none => rw [hl] at hv; exact (Except.noConfusion hv)
      | some line =>
        rw [hl] at hv
        simp only at hv
        rw [spliced_getElem? orig R1 s1 c1 hsc q hq, hl]
        simp only
        by_cases hleq : LinesEqual line content
        · rw [if_pos hleq] at hv
          rw [if_pos hleq]
          have := ih (q + 1) (by omega) hv
          have harith : q + 1 - c1 + R1.length = q - c1 + R1.length + 1 := by omega
          rw [harith] at this
          exact this
        · rw [if_neg hleq] at hv
          exact (Except.noConfusion hv)
    | minus =>
      simp only [validateOps] at hv ⊢
      cases hl : orig[q]? with
      | none => rw [hl] at hv; exact (Except.noConfusion hv)
      | some line =>
        rw [hl] at hv
        simp only at hv
        rw [spliced_getElem? orig R1 s1 c1 hsc q hq, hl]
        simp only
        by_cases hleq : LinesEqual line content
        · rw [if_pos hleq] at hv
          rw [if_pos hleq]
          have := ih (q + 1) (by omega) hv
          have harith : q + 1 - c1 + R1.length = q - c1 + R1.length + 1 := by omega
          rw [harith] at this
          exact this
        · rw [if_neg hleq] at hv
          exact (Except.noConfusion hv)
    | plus =>
      simp only [validateOps] at hv ⊢
      exact ih q hq hv

/-! ## Claim theorem: offset independence (C1) -/

/-- C1.  For two hunks that both validate at their stated positions against
the original buffer, with `h2.old_start > h1.old_start + h1.old_count`,
applying `[h1, h2]` with the line-mapping applier equals first applying
`[h1]` and then applying `h2` with its `old_start` manually adjusted by
`h1`'s net size delta (`|replacement| - old_count`) to the intermediate
buffer: addresses are resolved against original line numbers through the
maintained mapping even after the earlier hunk shifts the buffer. -/
theorem applyHunks_offset_independence (orig : List GoStr) (h1 h2 : ParsedHunk)
    (hs1 : 1 ≤ h1.header.oldStart) (hb1 : h1.header.oldStart ≤ orig.length)
    (hv1 : validateOps orig h1.operations (h1.header.oldStart - 1) = .ok ())
    (hb2 : h2.header.oldStart ≤ orig.length)
    (hv2 : validateOps orig h2.operations (h2.header.oldStart - 1) = .ok ())
    (hdisj : h1.header.oldStart + h1.header.oldCount < h2.header.oldStart) :
    applyHunksToLines orig [h1, h2] =
      (applyHunksToLines orig [h1]).bind (fun r1 =>
        applyHunksToLines r1
          [{ h2 with header := { h2.header with
              oldStart := h2.header.oldStart + (hunkNewLines h1).length
                - h1.header.oldCount } }]) := by
  set s1 := h1.header.oldStart - 1 with hs1def
  set c1 := h1.header.oldCount with hc1def
  set R1 := hunkNewLines h1 with hR1def
  set s2 := h2.header.oldStart - 1 with hs2def
  have hs1n : s1 < orig.length := by omega
  have hscn : s1 + c1 ≤ orig.length := by omega
  have hs12 : s1 + c1 < s2 := by omega
  have hs2n : s2 < orig.length := by omega
  have hfind1 : findBestHunkPosition orig h1 s1 = .ok s1 := by
    unfold findBestHunkPosition
    rw [hv1]
  have happ1 : applyHunkAtPosition orig h1 s1 =
      (orig.take s1 ++ R1 ++ orig.drop (s1 + c1), (R1.length : Int) - (c1 : Int)) := by
    rw [applyHunkAtPosition_eq, min_eq_left (by omega : s1 + c1 ≤ orig.length)]
  set r1 := orig.take s1 ++ R1 ++ orig.drop (s1 + c1) with hr1def
  have hr1len : r1.length = orig.length + R1.length - c1 := by
    rw [hr1def]
    simp only [List.length_append, List.length_take, List.length_drop]
    omega
  have hstep1 : applyHunksToLines orig [h1, h2] =
      applyHunksLoop orig [h2] r1
        (updateLineMapping (identityMapping orig.length) s1 c1
          ((R1.length : Int) - (c1 : Int))) := by
    unfold applyHunksToLines
    rw [applyHunksLoop_cons_ok hs1 hb1 hfind1 (identityMapping_getD hs1n)
      (le_of_lt hs1n), happ1]
  have hmap2 : (updateLineMapping (identityMapping orig.length) s1 c1
      ((R1.length : Int) - (c1 : Int))).getD s2 0
      = (s2 : Int) + ((R1.length : Int) - (c1 : Int)) :=
    updateLineMapping_identity_getD (by omega) hs2n
  have hfind2 : findBestHunkPosition orig h2 s2 = .ok s2 := by
    unfold findBestHunkPosition
    rw [hv2]
  have hcur0 : (0 : Int) ≤ (s2 : Int) + ((R1.length : Int) - (c1 : Int)) := by omega
  have hcurle : (s2 : Int) + ((R1.length : Int) - (c1 : Int)) ≤ (r1.length : Int) := by
    omega
  have hstep2 : applyHunksLoop orig [h2] r1
      (updateLineMapping (identityMapping orig.length) s1 c1
        ((R1.length : Int) - (c1 : Int))) =
      .ok (applyHunkAtPosition r1 h2
        ((s2 : Int) + ((R1.length : Int) - (c1 : Int))).toNat).1 := by
    rw [applyHunksLoop_cons_shifted (by omega) hb2 hfind2 hmap2 hcur0 hcurle]
    rfl
  have htonat : ((s2 : Int) + ((R1.length : Int) - (c1 : Int))).toNat
      = s2 + R1.length - c1 := by omega
  have hRHS1 : applyHunksToLines orig [h1] = .ok r1 := by
    unfold applyHunksToLines
    rw [applyHunksLoop_cons_ok hs1 hb1 hfind1 (identityMapping_getD hs1n)
      (le_of_lt hs1n), happ1]
    rfl
  set os2adj := h2.header.oldStart + R1.length - c1 with hosdef
  set h2adj : ParsedHunk :=
    { h2 with header := { h2.header with oldStart := os2adj } } with hadjdef
  have hadjstart : h2adj.header.oldStart = os2adj := rfl
  have hadjcount : h2adj.header.oldCount = h2.header.oldCount := rfl
  have hadjops : h2adj.operations = h2.operations := rfl
  have hs2adj : os2adj - 1 = s2 + R1.length - c1 := by rw [hosdef]; omega
  have hb2adj1 : 1 ≤ h2adj.header.oldStart := by rw [hadjstart, hosdef]; omega
  have hb2adj2 : h2adj.header.oldStart ≤ r1.length := by
    rw [hadjstart, hosdef, hr1len]
    omega
  have hv2' : validateOps r1 h2.operations (s2 - c1 + R1.length) = .ok () := by
    rw [hr1def]
    exact validateOps_shift hscn h2.operations s2 (by omega) hv2
  have hfind2' : findBestHunkPosition r1 h2adj (os2adj - 1) = .ok (os2adj - 1) := by
    unfold findBestHunkPosition
    have hops : validateOps r1 h2adj.operations (os2adj - 1) = .ok () := by
      have harith : os2adj - 1 = s2 - c1 + R1.length := by omega
      rw [harith]
      exact hv2'
    rw [hops]
  have hs2adjlt : os2adj - 1 < r1.length := by rw [hs2adj, hr1len]; omega
  have hRHS2 : applyHunksToLines r1 [h2adj] =
      .ok (applyHunkAtPosition r1 h2adj (os2adj - 1)).1 := by
    unfold applyHunksToLines
    rw [applyHunksLoop_cons_ok hb2adj1 hb2adj2 hfind2'
      (identityMapping_getD hs2adjlt) (le_of_lt hs2adjlt)]
    rfl
  have happEq : applyHunkAtPosition r1 h2adj (os2adj - 1) =
      applyHunkAtPosition r1 h2
        ((s2 : Int) + ((R1.length : Int) - (c1 : Int))).toNat := by
    have hnlEq : hunkNewLines h2adj = hunkNewLines h2 := rfl
    rw [htonat, applyHunkAtPosition_eq, applyHunkAtPosition_eq, hs2adj, hnlEq, hadjcount]
  rw [hRHS1]
  show applyHunksToLines orig [h1, h2] = applyHunksToLines r1 [h2adj]
  rw [hstep1, hstep2, hRHS2, happEq]

/-- Witness for C1: a first hunk replacing one line by two (net +1) and a
second hunk addressed at original line 3, equal to shifting the second hunk's
start to line 4 and applying it to the intermediate buffer. -/
theorem applyHunks_offset_independence_witness :
    applyHunksToLines [str "a", str "b", str "c", str "d", str "e"]
        [⟨⟨1, 1, 1, 2⟩, [⟨.minus, str "a"⟩, ⟨.plus, str "A1"⟩, ⟨.plus, str "A2"⟩]⟩,
         ⟨⟨3, 1, 4, 1⟩, [⟨.minus, str "c"⟩, ⟨.plus, str "C"⟩]⟩] =
      (applyHunksToLines [str "a", str "b", str "c", str "d", str "e"]
        [⟨⟨1, 1, 1, 2⟩, [⟨.minus, str "a"⟩, ⟨.plus, str "A1"⟩, ⟨.plus, str "A2"⟩]⟩]).bind
        (fun r1 => applyHunksToLines r1
          [⟨⟨4, 1, 4, 1⟩, [⟨.minus, str "c"⟩, ⟨.plus, str "C"⟩]⟩]) :=
  applyHunks_offset_independence
    [str "a", str "b", str "c", str "d", str "e"]
    ⟨⟨1, 1, 1, 2⟩, [⟨.minus, str "a"⟩, ⟨.plus, str "A1"⟩, ⟨.plus, str "A2"⟩]⟩
    ⟨⟨3, 1, 4, 1⟩, [⟨.minus, str "c"⟩, ⟨.plus, str "C"⟩]⟩
    (by decide) (by decide) (by decide) (by decide) (by decide) (by decide)

/-! ## Envelope parser (`pkg/parser/parser.go`, `pkg/parser/types.go`)

The model of `strings.TrimSpace` trims the ASCII whitespace characters; the
inputs of interest contain no non-ASCII white space, for which Go would also
trim Unicode spaces. -/

/-- ASCII white space as trimmed by `strings.TrimSpace`. -/
def isSpaceGo (c : Char) : Bool :=
  c = ' ' || c = '\t' || c = '\n' || c = '\x0b' || c = '\x0c' || c = '\r'

/-- Go `strings.TrimSpace` (ASCII fragment). -/
def trimSpace (s : GoStr) : GoStr :=
  ((s.dropWhile isSpaceGo).reverse.dropWhile isSpaceGo).reverse

/-- Go `strings.TrimSuffix`. -/
def trimSuffixGo (suffix s : GoStr) : GoStr :=
  if suffix.isSuffixOf s then s.take (s.length - suffix.length) else s

/-- Go `strings.ReplaceAll(s, "\r\n", "\n")`: replace CRLF pairs left to
right. -/
def replaceCRLF : GoStr → GoStr
  | '\r' :: '\n' :: rest => '\n' :: replaceCRLF rest
  | c :: rest => c :: replaceCRLF rest
  | [] => []

/-- Go `strings.ReplaceAll(s, "\r", "\n")`. -/
def replaceCR (s : GoStr) : GoStr := s.map (fun c => if c = '\r' then '\n' else c)

/-- The character class `[a-zA-Z0-9_-]` of the boundary regex. -/
def identChar (c : Char) : Bool :=
  ('a' ≤ c && c ≤ 'z') || ('A' ≤ c && c ≤ 'Z') || ('0' ≤ c && c ≤ '9') ||
    c = '_' || c = '-'

/-- The first match of the boundary regex
`--====DELTAGRAM_([a-zA-Z0-9_-]+)====` (parser.go lines 24-28), scanning left
to right.  At a candidate position the captured group is the maximal run of
class characters after the literal prefix (no shorter capture can be followed
by `====`, because a class character is never `=`), and the match requires
that run to be non-empty and followed by `====`. -/
def findBoundaryIdent : GoStr → Option GoStr
  | [] => none
  | c :: rest =>
    match dropPre (str "--====DELTAGRAM_") (c :: rest) with
    | some r =>
      let ident := r.takeWhile identChar
      if ident ≠ [] ∧ hasPre (str "====") (r.dropWhile identChar) = true then
        some ident
      else findBoundaryIdent rest
    | none => findBoundaryIdent rest

/-- The identifier validation regex `^[a-zA-Z0-9_-]{8,}$` (parser.go line 33). -/
def validIdentifier (ident : GoStr) : Bool :=
  decide (8 ≤ ident.length) && ident.all identChar

/-- The boundary delimiter built from the identifier (parser.go line 38). -/
def boundaryPattern (ident : GoStr) : GoStr :=
  str "--====DELTAGRAM_" ++ ident ++ str "===="

/-- Go `strings.Split` on a non-empty multi-character separator, fuelled by
the input length (each step consumes at least one character, so the fuel is
never exhausted when initialised with the input length). -/
def splitOnPatAux (pat : GoStr) : Nat → GoStr → List GoStr
  | 0, s => [s]
  | _ + 1, [] => [[]]
  | fuel + 1, c :: rest =>
    if pat.isPrefixOf (c :: rest) then
      [] :: splitOnPatAux pat fuel (List.drop (pat.length - 1) rest)
    else
      match splitOnPatAux pat fuel rest with
      | [] => [[c]]
      | l :: ls => (c :: l) :: ls

/-- Go `strings.Split` (non-empty separator). -/
def splitOnPat (pat s : GoStr) : List GoStr := splitOnPatAux pat s.length s

/-- DeltagramPart (types.go). -/
structure DeltagramPart where
  contentLocation : GoStr
  contentType : GoStr
  deltaOperation : GoStr
  content : GoStr
deriving DecidableEq, Repr

/-- Deltagram (types.go): the boundary identifier plus the ordered parts. -/
structure Deltagram where
  uuid : GoStr
  parts : List DeltagramPart
deriving DecidableEq, Repr

/-- Result of the header-scanning loop of parsePart (parser.go lines 85-100). -/
structure HeaderScan where
  contentLocation : GoStr
  contentType : GoStr
  deltaOperation : GoStr
  contentStartIndex : Nat
deriving DecidableEq, Repr

/-- The header loop of parsePart: each line is trimmed; a blank line stops the
scan recording `i + 1` as the content start; recognised headers record the
trimmed value after the header name (later occurrences overwrite).  When no
blank line occurs the content start index keeps its zero value. -/
def scanHeaders : List GoStr → Nat → GoStr → GoStr → GoStr → HeaderScan
  | [], _, cl, ct, dop => ⟨cl, ct, dop, 0⟩
  | line :: rest, i, cl, ct, dop =>
    let l := trimSpace line
    if l = [] then ⟨cl, ct, dop, i + 1⟩
    else
      match dropPre (str "Content-Location:") l with
      | some v => scanHeaders rest (i + 1) (trimSpace v) ct dop
      | none =>
        match dropPre (str "Content-Type:") l with
        | some v => scanHeaders rest (i + 1) cl (trimSpace v) dop
        | none =>
          match dropPre (str "Delta-Operation:") l with
          | some v => scanHeaders rest (i + 1) cl ct (trimSpace v)
          | none => scanHeaders rest (i + 1) cl ct dop

/-- The message test and `create` defaulting of parsePart (parser.go lines
110-115): only the Content-Location `deltagram://message` marks a message; a
non-message part with an empty Delta-Operation defaults to `create`. -/
def resolveDeltaOperation (contentLocation deltaOperation : GoStr) : GoStr :=
  if ¬(contentLocation = str "deltagram://message") ∧ deltaOperation = [] then
    str "create"
  else deltaOperation

/-- parsePart (parser.go lines 76-129). -/
def parsePart (partContent : GoStr) : Except GoStr DeltagramPart :=
  let pc := trimSpace partContent
  let lines := splitOnCh '\n' pc
  let hs := scanHeaders lines 0 [] [] []
  if hs.contentLocation = [] then .error (str "missing Content-Location header")
  else if hs.contentType = [] then .error (str "missing Content-Type header")
  else
    let deltaOperation := resolveDeltaOperation hs.contentLocation hs.deltaOperation
    let content :=
      if hs.contentStartIndex < lines.length then
        joinCh '\n' (lines.drop hs.contentStartIndex)
      else []
    .ok ⟨hs.contentLocation, hs.contentType, deltaOperation, content⟩

/-- The part loop of Parse (parser.go lines 55-71): a segment whose trimmed
form ends in `--` is the final boundary; after stripping the marker an empty
remainder ends the loop, a non-empty remainder is parsed as a part. -/
def parsePartsLoop : List GoStr → Nat → Except GoStr (List DeltagramPart)
  | [], _ => .ok []
  | part :: rest, i =>
    let t := trimSpace part
    if (str "--").isSuffixOf t = true then
      let part2 := trimSuffixGo (str "--") t
      if trimSpace part2 = [] then .ok []
      else
        match parsePart part2 with
        | .error e =>
          .error (str "error parsing part " ++ natRepr (i + 1) ++ str ": " ++ e)
        | .ok p =>
          match parsePartsLoop rest (i + 1) with
          | .error e => .error e
          | .ok ps => .ok (p :: ps)
    else
      match parsePart part with
      | .error e =>
        .error (str "error parsing part " ++ natRepr (i + 1) ++ str ": " ++ e)
      | .ok p =>
        match parsePartsLoop rest (i + 1) with
        | .error e => .error e
        | .ok ps => .ok (p :: ps)

/-- Parse (parser.go lines 18-74): normalise line endings, locate and validate
the boundary identifier, split on the boundary pattern, drop an empty
pre-boundary prefix, and parse the segments. -/
def Parse (input : GoStr) : Except GoStr Deltagram :=
  let content := replaceCR (replaceCRLF input)
  match findBoundaryIdent content with
  | none => .error (str "invalid deltagram format: missing or malformed boundary")
  | some identifier =>
    if validIdentifier identifier = false then
      .error (str "invalid boundary identifier format: " ++ identifier ++
        str " (must be at least 8 characters using alphanumeric, underscore, or dash)")
    else
      let parts := splitOnPat (boundaryPattern identifier) content
      if parts.length < 2 then
        .error (str "invalid deltagram format: no parts found")
      else
        let parts2 := if trimSpace (parts.headD []) = [] then parts.tail else parts
        match parsePartsLoop parts2 0 with
        | .error e => .error e
        | .ok ps => .ok ⟨identifier, ps⟩

/-! ## Claim theorems: identifier validation (C5) and message defaulting (C6) -/

theorem all_takeWhile (p : Char → Bool) : ∀ l : GoStr, (l.takeWhile p).all p = true := by
  intro l
  induction l with
  | nil => rfl
  | cons c rest ih =>
    by_cases hc : p c
    · simp [List.takeWhile, hc, ih]
    · simp [List.takeWhile, hc]

/-- An identifier captured by the boundary regex consists of class characters. -/
theorem findBoundaryIdent_class : ∀ (content ident : GoStr),
    findBoundaryIdent content = some ident → ident.all identChar = true := by
  intro content
  induction content with
  | nil => intro ident h; exact (Option.noConfusion h)
  | cons c rest ih =>
    intro ident h
    simp only [findBoundaryIdent] at h
    cases hd : dropPre (str "--====DELTAGRAM_") (c :: rest) with
    | none => rw [hd] at h; exact ih ident h
    | some r =>
      rw [hd] at h
      simp only at h
      by_cases hcond : r.takeWhile identChar ≠ [] ∧
          hasPre (str "====") (r.dropWhile identChar) = true
      · rw [if_pos hcond] at h
        cases h
        exact all_takeWhile identChar r
      · rw [if_neg hcond] at h
        exact ih ident h

/-- C5 (amended).  Every identifier the parser captures from a boundary is a
non-empty run of `[A-Za-z0-9_-]` characters, and on such identifiers the
validation regex `^[a-zA-Z0-9_-]{8,}$` accepts exactly those of length at
least 8 (failure mode `InvalidIdentifier`).  The envelope with identifier
`voice456sample789012345678901234ef` parses successfully; a seven-character
identifier fails with the `InvalidIdentifier` diagnostic.  An envelope whose
declared identifier contains characters outside the class never matches the
boundary regex at all, so it fails earlier with the missing/malformed-boundary
diagnostic (see the counterexample theorem). -/
theorem parse_identifier_rule :
    (∀ content ident, findBoundaryIdent content = some ident →
      (validIdentifier ident = true ↔ 8 ≤ ident.length))
    ∧ (Parse (str "--====DELTAGRAM_voice456sample789012345678901234ef====\nContent-Location: src/test.py\nContent-Type: text/plain\n\nhello\n--====DELTAGRAM_voice456sample789012345678901234ef====--")).isOk = true
    ∧ Parse (str "--====DELTAGRAM_test123====\nContent-Location: test/file.txt\nContent-Type: text/plain\n\nHello\n--====DELTAGRAM_test123====--")
        = .error (str "invalid boundary identifier format: test123 (must be at least 8 characters using alphanumeric, underscore, or dash)") := by
  refine ⟨?_, by decide, by decide⟩
  intro content ident h
  unfold validIdentifier
  rw [findBoundaryIdent_class content ident h]
  simp [decide_eq_true_iff]

/-- Witness for C5: the validation rule applied to the identifier captured
from a concrete boundary. -/
theorem parse_identifier_rule_witness :
    validIdentifier (str "test1234") = true ↔ 8 ≤ (str "test1234").length :=
  parse_identifier_rule.1 (str "--====DELTAGRAM_test1234====")
    (str "test1234") (by decide)

/-- Counterexample for C5: an envelope whose identifier `test@123#456`
contains characters outside the class fails with the missing/malformed
boundary diagnostic, not with the `InvalidIdentifier` diagnostic the claim
names. -/
theorem parse_at_identifier_counterexample :
    Parse (str "--====DELTAGRAM_test@123#456====\nContent-Location: test/file.txt\nContent-Type: text/plain; charset=utf-8; linesep=LF\n\nHello, World!\n--====DELTAGRAM_test@123#456====--")
        = .error (str "invalid deltagram format: missing or malformed boundary")
    ∧ str "invalid deltagram format: missing or malformed boundary" ≠
        str "invalid boundary identifier format: test@123#456 (must be at least 8 characters using alphanumeric, underscore, or dash)" := by
  exact ⟨by decide, by decide⟩

/-- C6 (amended).  For the parser, only `deltagram://message` marks a message
part: its Delta-Operation is left exactly as scanned (empty when the header is
absent, no defaulting).  A part with any other Content-Location — including
the legacy `mimeogram://message` — has an empty Delta-Operation defaulted to
`create`, and a non-empty Delta-Operation is never rewritten. -/
theorem parsePart_message_defaulting :
    (∀ dop : GoStr, resolveDeltaOperation (str "deltagram://message") dop = dop)
    ∧ (∀ cl : GoStr, cl ≠ str "deltagram://message" →
        resolveDeltaOperation cl [] = str "create")
    ∧ (∀ cl dop : GoStr, dop ≠ [] → resolveDeltaOperation cl dop = dop)
    ∧ parsePart (str "Content-Location: deltagram://message\nContent-Type: text/plain\n\nhi")
        = .ok ⟨str "deltagram://message", str "text/plain", [], str "hi"⟩ := by
  refine ⟨?_, ?_, ?_, by decide⟩
  · intro dop
    unfold resolveDeltaOperation
    rw [if_neg (fun hh => hh.1 rfl)]
  · intro cl hcl
    unfold resolveDeltaOperation
    rw [if_pos ⟨hcl, rfl⟩]
  · intro cl dop hdop
    unfold resolveDeltaOperation
    rw [if_neg (fun hh => hdop hh.2)]

/-- Witness for C6: the `create` default applied at a concrete non-message
location. -/
theorem parsePart_message_defaulting_witness :
    resolveDeltaOperation (str "src/a.txt") [] = str "create" :=
  parsePart_message_defaulting.2.1 (str "src/a.txt") (by decide)

/-- Counterexample for C6: a part whose Content-Location is the legacy
`mimeogram://message` and whose Delta-Operation header is absent is parsed
with `delta_operation = "create"`, not left empty as the claim states. -/
theorem parsePart_mimeogram_counterexample :
    parsePart (str "Content-Location: mimeogram://message\nContent-Type: text/plain\n\nhi")
        = .ok ⟨str "mimeogram://message", str "text/plain", str "create", str "hi"⟩
    ∧ str "create" ≠ ([] : GoStr) := by
  exact ⟨by decide, by decide⟩

/-! ## Filesystem model and file-op handlers (`pkg/operations`)

The `FileSystem` interface is modelled as an association list from resolved
paths to file contents (the in-memory variant the core is tested against).
`MkdirAll` and `WriteFile` always succeed in the model; `Stat`/`Open` failure
is existence of the path in the map. -/

abbrev FS := List (GoStr × GoStr)

/-- Read a file: `Stat`/`ReadFile`/`Open` succeed exactly when the path is
present. -/
def fsLookup : FS → GoStr → Option GoStr
  | [], _ => none
  | (p, v) :: rest, path => if p = path then some v else fsLookup rest path

/-- Remove a path from the filesystem. -/
def fsRemove (fs : FS) (path : GoStr) : FS := fs.filter (fun e => e.1 ≠ path)

/-- Write a file, overwriting any previous content. -/
def fsSet (fs : FS) (path v : GoStr) : FS := (path, v) :: fsRemove fs path

/-- The stack-based core of `filepath.Clean` (Unix separators): empty and `.`
components are dropped; `..` pops a poppable element, is dropped at the root,
and is kept at the start of a relative path.  The stack is kept reversed. -/
def cleanComps (rooted : Bool) : List GoStr → List GoStr → List GoStr
  | [], stack => stack
  | comp :: rest, stack =>
    if comp = [] ∨ comp = str "." then cleanComps rooted rest stack
    else if comp = str ".." then
      match stack with
      | top :: more =>
        if top = str ".." then cleanComps rooted rest (comp :: top :: more)
        else cleanComps rooted rest more
      | [] =>
        if rooted then cleanComps rooted rest []
        else cleanComps rooted rest [comp]
    else cleanComps rooted rest (comp :: stack)

/-- `filepath.Clean` for Unix separators (lexical processing only). -/
def pathClean (p : GoStr) : GoStr :=
  if p = [] then str "."
  else
    let rooted := hasPre (str "/") p
    let out := joinCh '/' (cleanComps rooted (splitOnCh '/' p) []).reverse
    if rooted then '/' :: out
    else if out = [] then str "." else out

/-- `filepath.Join` of two elements (Unix separators): join the non-empty
elements with `/` and clean; all-empty input gives the empty path. -/
def filepathJoin (a b : GoStr) : GoStr :=
  if a = [] ∧ b = [] then []
  else if a = [] then pathClean b
  else if b = [] then pathClean a
  else pathClean (a ++ '/' :: b)

/-- ResolveFilePath (pkg/operations/utils.go): URLs keep their trailing path
segment, absolute paths lose one leading slash, and the result is joined
under the base directory (host separator modelled as `/`). -/
def ResolveFilePath (baseDir filePath : GoStr) : GoStr :=
  let fp :=
    if hasPre (str "http://") filePath || hasPre (str "https://") filePath then
      (splitOnCh '/' filePath).reverse.headD []
    else if hasPre (str "/") filePath then
      filePath.drop 1
    else filePath
  filepathJoin baseDir fp

/-- The content-extraction loop of CreateHandler.Apply (filesystem.go lines
74-94): any line starting with `+++` turns recording on and is itself
dropped; while recording, lines are appended, separated by `\n` once the
accumulator is non-empty. -/
def createScan : List GoStr → GoStr → Bool → GoStr × Bool
  | [], content, started => (content, started)
  | line :: rest, content, started =>
    if hasPre (str "+++") line then createScan rest content true
    else if started then
      createScan rest (if content ≠ [] then content ++ '\n' :: line else content ++ line)
        started
    else createScan rest content started

/-- The body grammar of CreateHandler.Apply: the scanned content when a `+++`
marker occurred, the whole body otherwise. -/
def createContent (body : GoStr) : GoStr :=
  let r := createScan (splitOnCh '\n' body) [] false
  if r.2 then r.1 else body

/-- CreateHandler.Apply (filesystem.go lines 70-108): resolve, extract the
body content, ensure the directory (always succeeds in the model) and write. -/
def CreateHandler_Apply (fs : FS) (baseDir : GoStr) (part : DeltagramPart) :
    Except GoStr FS :=
  let filePath := ResolveFilePath baseDir part.contentLocation
  .ok (fsSet fs filePath (createContent part.content))

/-- DeleteHandler.Apply (delete.go): a missing file is a warning, not an
error. -/
def DeleteHandler_Apply (fs : FS) (baseDir : GoStr) (part : DeltagramPart) :
    Except GoStr FS :=
  let filePath := ResolveFilePath baseDir part.contentLocation
  match fsLookup fs filePath with
  | none => .ok fs
  | some _ => .ok (fsRemove fs filePath)

/-- The source/destination scan shared by move.go and the copy handler: each
line is trimmed, `---` lines set the source, `+++` lines set the destination,
later occurrences overwrite. -/
def scanMovePaths : List GoStr → GoStr → GoStr → GoStr × GoStr
  | [], src, dst => (src, dst)
  | line :: rest, src, dst =>
    let l := trimSpace line
    match dropPre (str "---") l with
    | some v => scanMovePaths rest (trimSpace v) dst
    | none =>
      match dropPre (str "+++") l with
      | some v => scanMovePaths rest src (trimSpace v)
      | none => scanMovePaths rest src dst

/-- MoveHandler.Apply (move.go): parse both paths, require both, make the
destination directory (always succeeds in the model) and rename; renaming a
missing source is the underlying I/O failure. -/
def MoveHandler_Apply (fs : FS) (baseDir : GoStr) (part : DeltagramPart) :
    Except GoStr FS :=
  let sp := scanMovePaths (splitOnCh '\n' part.content) [] []
  if sp.1 = [] ∨ sp.2 = [] then
    .error (str "invalid move operation: missing source or destination path")
  else
    let sourceFullPath := ResolveFilePath baseDir sp.1
    let destFullPath := ResolveFilePath baseDir sp.2
    match fsLookup fs sourceFullPath with
    | none => .error (str "failed to move file: file does not exist")
    | some content => .ok (fsSet (fsRemove fs sourceFullPath) destFullPath content)

/-- CopyHandler.Apply (the copy handler source): as move, but the source is
kept; opening a missing source is the underlying I/O failure. -/
def CopyHandler_Apply (fs : FS) (baseDir : GoStr) (part : DeltagramPart) :
    Except GoStr FS :=
  let sp := scanMovePaths (splitOnCh '\n' part.content) [] []
  if sp.1 = [] ∨ sp.2 = [] then
    .error (str "invalid copy operation: missing source or destination path")
  else
    let sourceFullPath := ResolveFilePath baseDir sp.1
    let destFullPath := ResolveFilePath baseDir sp.2
    match fsLookup fs sourceFullPath with
    | none => .error (str "failed to copy file: file does not exist")
    | some content => .ok (fsSet fs destFullPath content)

/-- ContentHandler.Apply (content.go lines 27-54): require the target to
exist (recommending `create` otherwise), read, apply the unified diff, and
write back. -/
def ContentHandler_Apply (fs : FS) (baseDir : GoStr) (part : DeltagramPart) :
    Except GoStr FS :=
  let filePath := ResolveFilePath baseDir part.contentLocation
  match fsLookup fs filePath with
  | none =>
    .error (str "cannot apply content operation to non-existent file: " ++
      part.contentLocation ++ str " (use 'create' operation instead)")
  | some existingContent =>
    match applyUnifiedDiff existingContent part.content with
    | .error e => .error (str "failed to apply diff: " ++ e)
    | .ok modifiedContent => .ok (fsSet fs filePath modifiedContent)

/-! ## Operation dispatcher (`pkg/operations/applier.go`) -/

/-- The five registered handlers, in registration order (applier.go lines
23-29). -/
inductive HandlerKind where
  | createH
  | deleteH
  | copyH
  | moveH
  | contentH
deriving DecidableEq, Repr

/-- CanHandle of each handler; the create handler also accepts the empty
operation. -/
def CanHandle : HandlerKind → GoStr → Bool
  | .createH, op => op = str "create" || op = []
  | .deleteH, op => op = str "delete"
  | .copyH, op => op = str "copy"
  | .moveH, op => op = str "move"
  | .contentH, op => op = str "content"

/-- Handler selection loop (applier.go lines 45-51). -/
def findHandler (op : GoStr) : Option HandlerKind :=
  [HandlerKind.createH, .deleteH, .copyH, .moveH, .contentH].find?
    (fun h => CanHandle h op)

/-- Dispatch to a handler's Apply. -/
def runHandler : HandlerKind → FS → GoStr → DeltagramPart → Except GoStr FS
  | .createH => CreateHandler_Apply
  | .deleteH => DeleteHandler_Apply
  | .copyH => CopyHandler_Apply
  | .moveH => MoveHandler_Apply
  | .contentH => ContentHandler_Apply

/-- One iteration of DefaultApplier.Apply (applier.go lines 37-61): message
sentinel parts are skipped without touching the filesystem; otherwise the
first matching handler runs (create as fallback) and failures are wrapped
with part-qualifying context. -/
def applyPart (fs : FS) (baseDir : GoStr) (part : DeltagramPart) : Except GoStr FS :=
  if part.contentLocation = str "mimeogram://message" ∨
      part.contentLocation = str "deltagram://message" then
    .ok fs
  else
    let handler := (findHandler part.deltaOperation).getD .createH
    match runHandler handler fs baseDir part with
    | .error e =>
      .error (str "failed to apply " ++ part.deltaOperation ++ str " operation to " ++
        part.contentLocation ++ str ": " ++ e)
    | .ok fs2 => .ok fs2

/-- The part loop of DefaultApplier.Apply: stream order, halt on first
failure. -/
def applyParts (baseDir : GoStr) : FS → List DeltagramPart → Except GoStr FS
  | fs, [] => .ok fs
  | fs, part :: rest =>
    match applyPart fs baseDir part with
    | .error e => .error e
    | .ok fs2 => applyParts baseDir fs2 rest

/-- DefaultApplier.Apply, entry point. -/
def DefaultApplier_Apply (fs : FS) (baseDir : GoStr) (d : Deltagram) :
    Except GoStr FS :=
  applyParts baseDir fs d.parts

/-! ## Claim theorems: content on missing file (C7), create body (C8),
message parts (C9) -/

/-- C7.  For every part whose resolved target path is absent from the
filesystem, the content handler fails with the diagnostic recommending the
`create` operation (the message literally contains `create`), and it never
returns a filesystem — no write is performed. -/
theorem content_missing_file (fs : FS) (baseDir : GoStr) (part : DeltagramPart)
    (hmiss : fsLookup fs (ResolveFilePath baseDir part.contentLocation) = none) :
    ContentHandler_Apply fs baseDir part =
      .error (str "cannot apply content operation to non-existent file: " ++
        part.contentLocation ++ str " (use 'create' operation instead)")
    ∧ (∃ pre post : GoStr,
        str "cannot apply content operation to non-existent file: " ++
          part.contentLocation ++ str " (use 'create' operation instead)"
          = pre ++ str "create" ++ post)
    ∧ ∀ fs2, ContentHandler_Apply fs baseDir part ≠ .ok fs2 := by
  have herr : ContentHandler_Apply fs baseDir part =
      .error (str "cannot apply content operation to non-existent file: " ++
        part.contentLocation ++ str " (use 'create' operation instead)") := by
    simp only [ContentHandler_Apply, hmiss]
  refine ⟨herr, ?_, ?_⟩
  · refine ⟨str "cannot apply content operation to non-existent file: " ++
      part.contentLocation ++ str " (use '", str "' operation instead)", ?_⟩
    have hsplit : str " (use 'create' operation instead)" =
        str " (use '" ++ str "create" ++ str "' operation instead)" := by decide
    rw [hsplit]
    simp [List.append_assoc]
  · intro fs2 hok
    rw [herr] at hok
    exact Except.noConfusion hok

/-- Witness for C7: a content part targeting a file absent from an empty
filesystem. -/
theorem content_missing_file_witness :
    ContentHandler_Apply [] (str "/base")
        ⟨str "a.txt", str "text/plain", str "content", str "@@ -1,1 +1,1 @@\n-x\n+y"⟩ =
      .error (str "cannot apply content operation to non-existent file: a.txt (use 'create' operation instead)") :=
  (content_missing_file [] (str "/base")
    ⟨str "a.txt", str "text/plain", str "content", str "@@ -1,1 +1,1 @@\n-x\n+y"⟩
    (by decide)).1

/-- While no `+++` marker has been seen and none occurs, the create scan
keeps its state. -/
theorem createScan_no_marker : ∀ (ls : List GoStr) (content : GoStr),
    (∀ l ∈ ls, hasPre (str "+++") l = false) →
    createScan ls content false = (content, false) := by
  intro ls
  induction ls with
  | nil => intro content _; rfl
  | cons l rest ih =>
    intro content hall
    have hl : hasPre (str "+++") l = false := hall l (List.mem_cons_self l rest)
    simp only [createScan, hl, Bool.false_eq_true, if_false]
    exact ih content (fun x hx => hall x (List.mem_cons_of_mem l hx))

/-- Once recording with a non-empty accumulator, the create scan skips every
further marker line and appends every other line behind a `\n`. -/
theorem createScan_started : ∀ (ls : List GoStr) (content : GoStr), content ≠ [] →
    createScan ls content true =
      (content ++ ((ls.filter (fun l => !(hasPre (str "+++") l))).map
        (fun l => '\n' :: l)).flatten, true) := by
  intro ls
  induction ls with
  | nil => intro content _; simp [createScan]
  | cons l rest ih =>
    intro content hne
    by_cases hm : hasPre (str "+++") l = true
    · simp only [createScan, hm, if_true]
      rw [ih content hne]
      have hf : (l :: rest).filter (fun l => !(hasPre (str "+++") l)) =
          rest.filter (fun l => !(hasPre (str "+++") l)) := by
        simp [List.filter_cons, hm]
      rw [hf]
    · have hm' : hasPre (str "+++") l = false := by simpa using hm
      simp only [createScan, hm', Bool.false_eq_true, if_false, if_true]
      rw [if_pos hne, ih (content ++ '\n' :: l) (by simp)]
      have hf : (l :: rest).filter (fun l => !(hasPre (str "+++") l)) =
          l :: rest.filter (fun l => !(hasPre (str "+++") l)) := by
        simp [List.filter_cons, hm']
      rw [hf]
      simp [List.append_assoc]

/-- Joining lines equals the head followed by newline-prefixed tails. -/
theorem joinCh_cons_eq : ∀ (h : GoStr) (t : List GoStr),
    joinCh '\n' (h :: t) = h ++ (t.map (fun l => '\n' :: l)).flatten := by
  intro h t
  induction t generalizing h with
  | nil => simp [joinCh]
  | cons l ls ih =>
    simp only [joinCh, List.map_cons, List.flatten_cons]
    rw [ih l]
    simp

/-- Recording with an empty accumulator: marker lines are skipped and empty
lines are dropped until the first non-empty kept line, after which everything
joins with `\n`. -/
theorem createScan_started_empty : ∀ ls : List GoStr,
    createScan ls [] true =
      (joinCh '\n' ((ls.filter (fun l => !(hasPre (str "+++") l))).dropWhile
        (fun l => l = [])), true) := by
  intro ls
  induction ls with
  | nil => rfl
  | cons l rest ih =>
    by_cases hm : hasPre (str "+++") l = true
    · simp only [createScan, hm, if_true]
      rw [ih]
      have hf : (l :: rest).filter (fun l => !(hasPre (str "+++") l)) =
          rest.filter (fun l => !(hasPre (str "+++") l)) := by
        simp [List.filter_cons, hm]
      rw [hf]
    · have hm' : hasPre (str "+++") l = false := by simpa using hm
      have hf : (l :: rest).filter (fun l => !(hasPre (str "+++") l)) =
          l :: rest.filter (fun l => !(hasPre (str "+++") l)) := by
        simp [List.filter_cons, hm']
      by_cases hl : l = []
      · subst hl
        simp only [createScan, hm', Bool.false_eq_true, if_false, if_true]
        rw [if_neg (by simp), List.append_nil]
        rw [ih, hf]
        have hd : (([] : GoStr) :: rest.filter (fun l => !(hasPre (str "+++") l))).dropWhile
            (fun l => l = []) =
            (rest.filter (fun l => !(hasPre (str "+++") l))).dropWhile (fun l => l = []) := by
          simp [List.dropWhile_cons]
        rw [hd]
      · simp only [createScan, hm', Bool.false_eq_true, if_false, if_true]
        rw [if_neg (by simp), List.nil_append]
        rw [createScan_started rest l hl, hf]
        have hd : (l :: rest.filter (fun l => !(hasPre (str "+++") l))).dropWhile
            (fun l => l = []) =
            l :: rest.filter (fun l => !(hasPre (str "+++") l)) := by
          simp [List.dropWhile_cons, hl]
        rw [hd, joinCh_cons_eq]

/-- Before the first marker every line is dropped; from the line after the
first marker on, the scan behaves as `createScan_started_empty`. -/
theorem createScan_unstarted : ∀ ls : List GoStr,
    (∃ l ∈ ls, hasPre (str "+++") l = true) →
    createScan ls [] false =
      (joinCh '\n' ((((ls.dropWhile (fun l => !(hasPre (str "+++") l))).tail).filter
        (fun l => !(hasPre (str "+++") l))).dropWhile (fun l => l = [])), true) := by
  intro ls
  induction ls with
  | nil => intro h; simp at h
  | cons l rest ih =>
    intro hex
    by_cases hm : hasPre (str "+++") l = true
    · simp only [createScan, hm, if_true]
      rw [createScan_started_empty]
      have hd : (l :: rest).dropWhile (fun l => !(hasPre (str "+++") l)) = l :: rest := by
        simp [List.dropWhile_cons, hm]
      rw [hd]
      rfl
    · have hm' : hasPre (str "+++") l = false := by simpa using hm
      have hex' : ∃ x ∈ rest, hasPre (str "+++") x = true := by
        rcases hex with ⟨x, hx, hpx⟩
        rcases List.mem_cons.mp hx with rfl | hx'
        · exact absurd hpx hm
        · exact ⟨x, hx', hpx⟩
      simp only [createScan, hm', Bool.false_eq_true, if_false]
      rw [ih hex']
      have hd : (l :: rest).dropWhile (fun l => !(hasPre (str "+++") l)) =
          rest.dropWhile (fun l => !(hasPre (str "+++") l)) := by
        simp [List.dropWhile_cons, hm']
      rw [hd]

/-- C8 (amended).  Complete description of the create body grammar.  When no
line of the body starts with `+++`, the entire body is written verbatim.
Otherwise the written content is obtained from the lines strictly after the
first `+++` line by stripping every further line that starts with `+++` and
the leading empty lines, then joining with LF; no trailing newline is added.
In particular, lines before the first marker are dropped, and when the marker
is the first line of the body and the remainder contains no further `+++` line
and does not begin with an empty line, the remainder is written verbatim. -/
theorem create_body_verbatim :
    (∀ body : GoStr,
      (splitOnCh '\n' body).all (fun l => !(hasPre (str "+++") l)) = true →
      createContent body = body)
    ∧ (∀ body : GoStr,
      (splitOnCh '\n' body).all (fun l => !(hasPre (str "+++") l)) = false →
      createContent body =
        joinCh '\n'
          (((((splitOnCh '\n' body).dropWhile (fun l => !(hasPre (str "+++") l))).tail).filter
            (fun l => !(hasPre (str "+++") l))).dropWhile (fun l => l = [])))
    ∧ (∀ (body first : GoStr) (rest : List GoStr),
      splitOnCh '\n' body = first :: rest →
      hasPre (str "+++") first = true →
      (∀ l ∈ rest, hasPre (str "+++") l = false) →
      (rest = [] ∨ rest.headD [] ≠ []) →
      createContent body = joinCh '\n' rest) := by
  refine ⟨?_, ?_, ?_⟩
  · intro body hall
    have hall' : ∀ l ∈ splitOnCh '\n' body, hasPre (str "+++") l = false := by
      intro l hl
      have := List.all_eq_true.mp hall l hl
      simpa using this
    unfold createContent
    rw [createScan_no_marker _ [] hall']
    rfl
  · intro body hall
    have hex : ∃ l ∈ splitOnCh '\n' body, hasPre (str "+++") l = true := by
      by_contra hno
      push_neg at hno
      have htrue : (splitOnCh '\n' body).all (fun l => !(hasPre (str "+++") l)) = true := by
        rw [List.all_eq_true]
        intro x hx
        have hx' : hasPre (str "+++") x = false := by
          cases hhx : hasPre (str "+++") x
          · rfl
          · exact absurd hhx (hno x hx)
        simp [hx']
      rw [hall] at htrue
      exact Bool.noConfusion htrue
    unfold createContent
    rw [createScan_unstarted _ hex]
    rfl
  · intro body first rest hsplit hfirst hall hhead
    have hd1 : (first :: rest).dropWhile (fun l => !(hasPre (str "+++") l)) =
        first :: rest := by
      simp [List.dropWhile_cons, hfirst]
    have hf : rest.filter (fun l => !(hasPre (str "+++") l)) = rest :=
      List.filter_eq_self.mpr (fun x hx => by simp [hall x hx])
    have hd2 : rest.dropWhile (fun l => l = []) = rest := by
      cases rest with
      | nil => rfl
      | cons h t =>
        have hh : h ≠ [] := by
          rcases hhead with hc | hc
          · exact absurd hc (List.cons_ne_nil h t)
          · simpa using hc
        simp [List.dropWhile_cons, hh]
    have hscan : createScan (first :: rest) [] false = (joinCh '\n' rest, true) := by
      rw [createScan_unstarted (first :: rest)
        ⟨first, List.mem_cons_self first rest, hfirst⟩, hd1]
      simp only [List.tail_cons]
      rw [hf, hd2]
    unfold createContent
    rw [hsplit, hscan]
    rfl

/-- Witness for C8: a body with a line before the marker, an empty line and a
second marker after it; the written content keeps exactly the non-marker
lines after the first marker, with the leading empty line dropped. -/
theorem create_body_verbatim_witness :
    createContent (str "a\n+++ f\n\nx\n+++ y\nend") = str "x\nend" := by
  have h := create_body_verbatim.2.1 (str "a\n+++ f\n\nx\n+++ y\nend") (by decide)
  exact h.trans (by decide)

/-- Counterexample for C8: a `+++` line after the marker is stripped rather
than written, so the remainder of the body is not preserved byte for byte. -/
theorem create_body_counterexample :
    createContent (str "+++ f\nx\n+++ y") = str "x"
    ∧ str "x" ≠ str "x\n+++ y" := by
  exact ⟨by decide, by decide⟩

/-- C9.  A part whose Content-Location is `deltagram://message` or the legacy
`mimeogram://message` is skipped by the dispatcher without any filesystem
operation, whatever its Delta-Operation says (even `delete`): dispatching it
returns the filesystem unchanged, and inside the part loop it behaves as a
no-op. -/
theorem applier_skips_message_parts :
    (∀ (fs : FS) (baseDir : GoStr) (part : DeltagramPart),
      part.contentLocation = str "mimeogram://message" ∨
        part.contentLocation = str "deltagram://message" →
      applyPart fs baseDir part = .ok fs)
    ∧ (∀ (fs : FS) (baseDir : GoStr) (part : DeltagramPart)
        (rest : List DeltagramPart),
      part.contentLocation = str "mimeogram://message" ∨
        part.contentLocation = str "deltagram://message" →
      applyParts baseDir fs (part :: rest) = applyParts baseDir fs rest) := by
  have h1 : ∀ (fs : FS) (baseDir : GoStr) (part : DeltagramPart),
      part.contentLocation = str "mimeogram://message" ∨
        part.contentLocation = str "deltagram://message" →
      applyPart fs baseDir part = .ok fs := by
    intro fs baseDir part hsent
    unfold applyPart
    rw [if_pos hsent]
  refine ⟨h1, ?_⟩
  intro fs baseDir part rest hsent
  simp only [applyParts, h1 fs baseDir part hsent]

/-- Witness for C9: a message part carrying the destructive verb `delete`
leaves a non-empty filesystem untouched. -/
theorem applier_skips_message_parts_witness :
    applyPart [(str "/base/f.txt", str "data")] (str "/base")
        ⟨str "deltagram://message", str "text/plain", str "delete", str "--- f.txt"⟩ =
      .ok [(str "/base/f.txt", str "data")] :=
  applier_skips_message_parts.1 [(str "/base/f.txt", str "data")] (str "/base")
    ⟨str "deltagram://message", str "text/plain", str "delete", str "--- f.txt"⟩
    (Or.inr rfl)
